import Mathlib

/-!
Verification of the plasmid-maker core (`plasmid_maker.py`).

Python strings over the nucleotide alphabet are modelled as `List Char`.
Python's fallible indexed-write and the unbounded `while` loop of
`mutate_motif` are modelled by a fuel-indexed step function `mutateAux`
whose result distinguishes normal termination, an out-of-bounds write
(Python `IndexError`), and fuel exhaustion (non-termination).
-/

namespace PlasmidMaker

/-- Mutation rule from `mutate_motif`: `"C" if s[j] == "A" else "A"`. -/
def flipBase (c : Char) : Char := if c = 'A' then 'C' else 'A'

/-- Python `s[i:i+len(m)] == m`: the slice of `s` at `i` equals `m`. -/
def sliceEq (s : List Char) (i : Nat) (m : List Char) : Bool :=
  ((s.drop i).take m.length) == m

/-- Python `m in s`: `m` occurs as a contiguous substring of `s`. -/
def containsSub (s m : List Char) : Bool :=
  (List.range (s.length + 1)).any (fun p => sliceEq s p m)

/-- Number of positions of `s` at which `m` occurs as a substring. -/
def countOcc (s m : List Char) : Nat :=
  (List.range (s.length + 1)).countP (fun p => sliceEq s p m)

/-- Outcome of the `mutate_motif` loop: normal return, or the Python
`IndexError` raised by the write `s[i+1] = ...` when `i+1` is out of range. -/
inductive MutStep where
  | ok (r : List Char)
  | oob
deriving DecidableEq, Repr

/-- One-for-one model of the `while` loop of `mutate_motif`, indexed by fuel.
`none` means the fuel ran out (the Python loop would still be running). -/
def mutateAux (m : List Char) : Nat → List Char → Nat → Option MutStep
  | 0, s, i =>
    if i + m.length ≤ s.length then none else some (MutStep.ok s)
  | fuel + 1, s, i =>
    if i + m.length ≤ s.length then
      if sliceEq s i m then
        if i + 1 < s.length then
          mutateAux m fuel (s.set (i + 1) (flipBase (s.getD (i + 1) 'N'))) (i + m.length)
        else some MutStep.oob
      else mutateAux m fuel s (i + 1)
    else some (MutStep.ok s)

/-- `mutate_motif(seq, motif)`.  For motifs of length at least 2 the fuel
`s.length + 1` is always sufficient (proved below), so the default branch
is never taken in the uses the program makes of it. -/
def mutate_motif (s m : List Char) : List Char :=
  match mutateAux m (s.length + 1) s 0 with
  | some (MutStep.ok r) => r
  | _ => s

/-- The positions at which the `mutate_motif` loop matches the motif during
its scan: the same control flow as `mutateAux`, recording the index `i` of
each taken `if`-branch instead of performing the writes' result. -/
def matchesAux (m : List Char) : Nat → List Char → Nat → Option (List Nat)
  | 0, s, i =>
    if i + m.length ≤ s.length then none else some []
  | fuel + 1, s, i =>
    if i + m.length ≤ s.length then
      if sliceEq s i m then
        if i + 1 < s.length then
          (matchesAux m fuel (s.set (i + 1) (flipBase (s.getD (i + 1) 'N')))
            (i + m.length)).map (fun ps => i :: ps)
        else none
      else matchesAux m fuel s (i + 1)
    else some []

/-- The list of scan positions matched by `mutate_motif s m`, in scan order. -/
def mutate_matches (s m : List Char) : List Nat :=
  (matchesAux m (s.length + 1) s 0).getD []

/-- `sum(1 for b in win if b in ("A", "T"))`. -/
def at_count (win : List Char) : Nat := win.countP (fun b => b == 'A' || b == 'T')

/-- Python `range(0, stop, step)` for `step > 0` (empty for `step = 0`;
Python would raise `ValueError` there, and the program never does that). -/
def pyRange (stop step : Nat) : List Nat :=
  if step = 0 then [] else (List.range ((stop + step - 1) / step)).map (fun k => k * step)

/-- Loop body of `find_ori`: accumulator is `(best_start, best_score)`.
The Python float division `at_count / len(win)` is modelled as the exact
rational `mkRat (at_count win) win.length`, which equals
`(at_count win : ℚ) / (win.length : ℚ)`. -/
def oriStep (u : List Char) (w : Nat) (acc : Nat × ℚ) (start : Nat) : Nat × ℚ :=
  let win := (u.drop start).take w
  if win = [] then acc
  else
    let frac : ℚ := mkRat (at_count win) win.length
    if acc.2 < frac then (start, frac) else acc

/-- `find_ori(seq, window, step)`. -/
def find_ori (seq : List Char) (window step : Nat) : Nat × Nat :=
  let u := seq.map Char.toUpper
  let n := u.length
  if n = 0 then (0, 0)
  else
    let w := if n < window then n else window
    let starts := pyRange (max 1 (n - w + 1)) step
    let best := starts.foldl (oriStep u w) (0, -1)
    (best.1, min (best.1 + w) n)

/-- The fixed restriction-site catalog `RE_SITE`. -/
def RE_SITE : List (String × List Char) :=
  [("EcoRI", "GAATTC".data), ("SacI", "GAGCTC".data), ("KpnI", "GGTACC".data),
   ("SmaI", "CCCGGG".data), ("BamHI", "GGATCC".data), ("XbaI", "TCTAGA".data),
   ("SalI", "GTCGAC".data), ("PstI", "CTGCAG".data), ("SphI", "GCATGC".data),
   ("HindIII", "AAGCTT".data)]

/-- Python `"".join(parts)`. -/
def pyJoin (parts : List (List Char)) : List Char := parts.foldr (fun a b => a ++ b) []

/-- `build_mcs(enzymes)`: append the motif of each known enzyme in order. -/
def build_mcs (enzymes : List String) : List Char :=
  pyJoin (enzymes.foldl (fun pieces name =>
    match List.lookup name RE_SITE with
    | none => pieces
    | some site => pieces ++ [site]) [])

/-- `build_replication_core()`: `"ATG" + "A" * 100 + "TAA"`. -/
def build_replication_core : List Char := "ATG".data ++ List.replicate 100 'A' ++ "TAA".data

/-- The parsed design: ordered enzyme and antibiotic names. -/
structure PlasmidDesign where
  enzymes : List String
  antibiotics : List String

/-- The assembly phase of `build_plasmid` (everything before the
`remove_sites` loop): ori block, replication core, spacer-prefixed markers
in design order, spacer-prefixed MCS when non-empty. -/
def assemble_plasmid (input_seq : List Char) (design : PlasmidDesign)
    (markers : List (String × List Char)) : List Char :=
  let ori := find_ori input_seq 800 100
  let ori_block := (input_seq.take ori.2).drop ori.1
  let parts0 : List (List Char) := [ori_block, build_replication_core]
  let parts1 := design.antibiotics.foldl (fun acc ab_name =>
    match List.lookup ab_name markers with
    | none => acc
    | some mseq => acc ++ ["AAAA".data, mseq]) parts0
  let mcs_seq := build_mcs design.enzymes
  let parts2 := if mcs_seq = [] then parts1 else parts1 ++ ["AAAA".data, mcs_seq]
  pyJoin parts2

/-- `build_plasmid`: assembly followed by the removal passes.  A failing
`mutate_motif` call (impossible for catalog motifs, proved below) would
surface as `none`. -/
def build_plasmid (input_seq : List Char) (design : PlasmidDesign)
    (markers : List (String × List Char)) (remove_sites : List String) :
    Option (List Char) :=
  remove_sites.foldlM (fun cur name =>
    match List.lookup name RE_SITE with
    | none => some cur
    | some motif =>
      if containsSub cur motif then
        match mutateAux motif (cur.length + 1) cur 0 with
        | some (MutStep.ok r) => some r
        | _ => none
      else some cur) (assemble_plasmid input_seq design markers)

/-- Shorthand for reading a sequence position with an out-of-alphabet default. -/
def gd (s : List Char) (q : Nat) : Char := s.getD q 'N'

/-- Propositional form of `sliceEq`: `m` matches `s` at position `i`. -/
def MatchAt (s : List Char) (i : Nat) (m : List Char) : Prop :=
  i + m.length ≤ s.length ∧ ∀ j, j < m.length → gd s (i + j) = gd m j

/-- Motif property: mutating the second base of a match cannot create a new
occurrence starting strictly before the match. -/
def P1 (m : List Char) : Prop :=
  ∀ k, k < m.length → 2 ≤ k →
    gd m k = flipBase (gd m 1) → gd m (k - 1) = gd m 0 →
    ∃ j, j < m.length ∧ k < j ∧ gd m j ≠ gd m (j - k + 1)

/-- Motif property: mutating the second base of a match cannot create a new
occurrence starting one position after the match. -/
def P2 (m : List Char) : Prop :=
  gd m 0 = flipBase (gd m 1) →
    ∃ j, j < m.length - 1 ∧ 1 ≤ j ∧ gd m j ≠ gd m (j + 1)

/-- Motif property: the motif does not overlap itself at any shift `d ≥ 2`,
so no occurrence can start inside the skipped region of a match. -/
def P3 (m : List Char) : Prop :=
  ∀ d, d < m.length → 2 ≤ d →
    ∃ j, j < m.length - d ∧ gd m j ≠ gd m (j + d)

/-- Window width actually used by `find_ori` (clamped to the length). -/
def oriW (s : List Char) (window : Nat) : Nat :=
  if s.length < window then s.length else window

/-- The window scored by `find_ori` at start `q` (on the uppercased input). -/
def oriWin (s : List Char) (window q : Nat) : List Char :=
  ((s.map Char.toUpper).drop q).take (oriW s window)

/-- The AT-fraction score of the window at start `q`. -/
def oriFrac (s : List Char) (window q : Nat) : ℚ :=
  mkRat (at_count (oriWin s window q)) (oriWin s window q).length

/-- The list of start positions scanned by `find_ori`. -/
def oriStarts (s : List Char) (window step : Nat) : List Nat :=
  pyRange (max 1 (s.length - oriW s window + 1)) step

/-- The AT-fraction score of the window of `u` at start `x` (helper form of
`oriFrac` stated over the already-uppercased sequence). -/
def oriFracU (u : List Char) (w x : Nat) : ℚ :=
  mkRat (at_count ((u.drop x).take w)) ((u.drop x).take w).length

/-- The `(best_start, best_score)` accumulator computed by `find_ori`. -/
def bestOf (s : List Char) (window step : Nat) : Nat × ℚ :=
  (oriStarts s window step).foldl (oriStep (s.map Char.toUpper) (oriW s window)) (0, -1)

instance (m : List Char) : Decidable (P1 m) := by unfold P1; infer_instance

instance (m : List Char) : Decidable (P2 m) := by unfold P2; infer_instance

instance (m : List Char) : Decidable (P3 m) := by unfold P3; infer_instance

/-! ### Basic helper lemmas -/

theorem flipBase_ne (c : Char) : flipBase c ≠ c := by
  unfold flipBase
  split
  · rename_i h; rw [h]; decide
  · rename_i h; intro hc; exact h hc.symm

theorem gd_eq_getElem? (s : List Char) (q : Nat) : gd s q = (s[q]?).getD 'N' := by
  simp [gd, List.getD_eq_getElem?_getD]

theorem getD_set (s : List Char) (k q : Nat) (c d : Char) :
    (s.set k c).getD q d = if q = k ∧ k < s.length then c else s.getD q d := by
  rw [List.getD_eq_getElem?_getD, List.getD_eq_getElem?_getD, List.getElem?_set]
  by_cases h1 : k = q
  · subst h1
    by_cases h2 : k < s.length
    · rw [if_pos rfl, if_pos h2, if_pos ⟨rfl, h2⟩]
      rfl
    · rw [if_pos rfl, if_neg h2, if_neg (fun hc => h2 hc.2)]
      rw [List.getElem?_eq_none (Nat.le_of_not_lt h2)]
  · rw [if_neg h1, if_neg (fun hc => h1 hc.1.symm)]

theorem gd_set (s : List Char) (k q : Nat) (c : Char) (hk : k < s.length) :
    gd (s.set k c) q = if q = k then c else gd s q := by
  unfold gd
  rw [getD_set]
  by_cases h : q = k <;> simp [h, hk]

theorem sliceEq_true_iff {s m : List Char} {i : Nat} (hm : 0 < m.length) :
    sliceEq s i m = true ↔ MatchAt s i m := by
  unfold sliceEq MatchAt
  rw [beq_iff_eq]
  constructor
  · intro h
    have hlen : ((s.drop i).take m.length).length = m.length := by rw [h]
    rw [List.length_take, List.length_drop] at hlen
    have hle : i + m.length ≤ s.length := by omega
    refine ⟨hle, fun j hj => ?_⟩
    have : m[j]? = ((s.drop i).take m.length)[j]? := by rw [h]
    rw [List.getElem?_take_of_lt hj, List.getElem?_drop] at this
    rw [gd_eq_getElem?, gd_eq_getElem?, this]
  · rintro ⟨hle, hpt⟩
    apply List.ext_getElem?
    intro n
    by_cases hn : n < m.length
    · rw [List.getElem?_take_of_lt hn, List.getElem?_drop]
      have h1 : i + n < s.length := by omega
      have := hpt n hn
      rw [gd_eq_getElem?, gd_eq_getElem?, List.getElem?_eq_getElem h1,
        List.getElem?_eq_getElem hn] at this
      rw [List.getElem?_eq_getElem h1, List.getElem?_eq_getElem hn]
      simpa using this
    · rw [List.getElem?_eq_none, List.getElem?_eq_none (by omega)]
      rw [List.length_take, List.length_drop]
      omega

theorem matchAt_of_sliceEq {s m : List Char} {i : Nat} (hm : 0 < m.length)
    (h : sliceEq s i m = true) : MatchAt s i m := (sliceEq_true_iff hm).mp h

theorem not_matchAt_of_sliceEq_false {s m : List Char} {i : Nat} (hm : 0 < m.length)
    (h : ¬ sliceEq s i m = true) : ¬ MatchAt s i m := fun hc => h ((sliceEq_true_iff hm).mpr hc)

theorem containsSub_false_iff {s m : List Char} (hm : 0 < m.length) :
    containsSub s m = false ↔ ∀ p, ¬ MatchAt s p m := by
  unfold containsSub
  rw [List.any_eq_false]
  constructor
  · intro h p hp
    have h3 := hp.1
    have hmem : p ∈ List.range (s.length + 1) := List.mem_range.mpr (by omega)
    exact h p hmem ((sliceEq_true_iff hm).mpr hp)
  · intro h p _ hp
    exact h p ((sliceEq_true_iff hm).mp hp)

/-! ### The mutate loop: equations, totality, frame -/

theorem mutateAux_zero (m s : List Char) (i : Nat) :
    mutateAux m 0 s i = if i + m.length ≤ s.length then none else some (MutStep.ok s) := rfl

theorem mutateAux_succ (m s : List Char) (fuel i : Nat) :
    mutateAux m (fuel + 1) s i =
      if i + m.length ≤ s.length then
        if sliceEq s i m then
          if i + 1 < s.length then
            mutateAux m fuel (s.set (i + 1) (flipBase (s.getD (i + 1) 'N'))) (i + m.length)
          else some MutStep.oob
        else mutateAux m fuel s (i + 1)
      else some (MutStep.ok s) := rfl

theorem mutateAux_total (m : List Char) (hm : 2 ≤ m.length) :
    ∀ (fuel : Nat) (s : List Char) (i : Nat), s.length + 1 ≤ fuel + i →
      ∃ r, mutateAux m fuel s i = some (MutStep.ok r) ∧ r.length = s.length := by
  intro fuel
  induction fuel with
  | zero =>
    intro s i h
    rw [mutateAux_zero, if_neg (by omega)]
    exact ⟨s, rfl, rfl⟩
  | succ fuel ih =>
    intro s i h
    rw [mutateAux_succ]
    by_cases hg : i + m.length ≤ s.length
    · rw [if_pos hg]
      by_cases hsl : sliceEq s i m = true
      · rw [if_pos hsl, if_pos (show i + 1 < s.length by omega)]
        obtain ⟨r, hr, hlen⟩ := ih (s.set (i + 1) (flipBase (s.getD (i + 1) 'N')))
          (i + m.length) (by rw [List.length_set]; omega)
        exact ⟨r, hr, by rw [hlen, List.length_set]⟩
      · rw [if_neg hsl]
        exact ih s (i + 1) (by omega)
    · rw [if_neg hg]
      exact ⟨s, rfl, rfl⟩

theorem mutate_motif_spec (m s : List Char) (hm : 2 ≤ m.length) :
    ∃ r, mutateAux m (s.length + 1) s 0 = some (MutStep.ok r) ∧
      mutate_motif s m = r ∧ r.length = s.length := by
  obtain ⟨r, hr, hlen⟩ := mutateAux_total m hm (s.length + 1) s 0 (by omega)
  refine ⟨r, hr, ?_, hlen⟩
  unfold mutate_motif
  rw [hr]

theorem mutateAux_frame (m : List Char) (hm : 2 ≤ m.length) :
    ∀ (fuel : Nat) (s : List Char) (i : Nat) (r : List Char),
      mutateAux m fuel s i = some (MutStep.ok r) →
      ∀ q, gd r q ≠ gd s q →
        ∃ p, i ≤ p ∧ q = p + 1 ∧ MatchAt s p m ∧ gd r q = flipBase (gd s q) := by
  intro fuel
  induction fuel with
  | zero =>
    intro s i r hr q hq
    rw [mutateAux_zero] at hr
    by_cases hg : i + m.length ≤ s.length
    · rw [if_pos hg] at hr; cases hr
    · rw [if_neg hg] at hr
      cases hr
      exact absurd rfl hq
  | succ fuel ih =>
    intro s i r hr q hq
    rw [mutateAux_succ] at hr
    by_cases hg : i + m.length ≤ s.length
    · rw [if_pos hg] at hr
      by_cases hsl : sliceEq s i m = true
      · rw [if_pos hsl, if_pos (show i + 1 < s.length by omega)] at hr
        have hmt : MatchAt s i m := matchAt_of_sliceEq (by omega) hsl
        have hlt : i + 1 < s.length := by omega
        have hgd : ∀ t, gd (s.set (i + 1) (flipBase (s.getD (i + 1) 'N'))) t =
            if t = i + 1 then flipBase (gd s (i + 1)) else gd s t := by
          intro t
          exact gd_set s (i + 1) t (flipBase (s.getD (i + 1) 'N')) hlt
        by_cases hq1 : q = i + 1
        · subst hq1
          by_cases h2 : gd r (i + 1) = gd (s.set (i + 1) (flipBase (s.getD (i + 1) 'N'))) (i + 1)
          · rw [h2, hgd, if_pos rfl]
            exact ⟨i, Nat.le_refl i, rfl, hmt, rfl⟩
          · obtain ⟨p, hp1, hp2, _, _⟩ := ih _ _ r hr _ h2
            omega
        · have h3 : gd (s.set (i + 1) (flipBase (s.getD (i + 1) 'N'))) q = gd s q := by
            rw [hgd, if_neg hq1]
          obtain ⟨p, hp1, hp2, hp3, hp4⟩ := ih _ _ r hr q (by rw [h3]; exact hq)
          refine ⟨p, by omega, hp2, ?_, ?_⟩
          · refine ⟨?_, fun j hj => ?_⟩
            · have := hp3.1
              rw [List.length_set] at this
              exact this
            · have := hp3.2 j hj
              rw [hgd, if_neg (by omega)] at this
              exact this
          · rw [h3] at hp4
            exact hp4
      · rw [if_neg hsl] at hr
        obtain ⟨p, hp1, hp2, hp3, hp4⟩ := ih _ _ r hr q hq
        exact ⟨p, by omega, hp2, hp3, hp4⟩
    · rw [if_neg hg] at hr
      cases hr
      exact absurd rfl hq

theorem matchesAux_zero (m s : List Char) (i : Nat) :
    matchesAux m 0 s i =
      if i + m.length ≤ s.length then none else some [] := rfl

theorem matchesAux_succ (m s : List Char) (fuel i : Nat) :
    matchesAux m (fuel + 1) s i =
      if i + m.length ≤ s.length then
        if sliceEq s i m then
          if i + 1 < s.length then
            (matchesAux m fuel (s.set (i + 1) (flipBase (s.getD (i + 1) 'N')))
              (i + m.length)).map (fun ps => i :: ps)
          else none
        else matchesAux m fuel s (i + 1)
      else some [] := rfl

/-- Whenever the scan completes normally, the trace of matched positions is
defined, every traced position is a genuine occurrence of the motif in the
scanned sequence, and every changed position is the second position of a
traced match (carrying the flipped base). -/
theorem mutateAux_matches (m : List Char) (hm : 2 ≤ m.length) :
    ∀ (fuel : Nat) (s : List Char) (i : Nat) (r : List Char),
      mutateAux m fuel s i = some (MutStep.ok r) →
      ∃ ps, matchesAux m fuel s i = some ps ∧
        (∀ p ∈ ps, i ≤ p ∧ MatchAt s p m) ∧
        (∀ q, gd r q ≠ gd s q →
          ∃ p ∈ ps, q = p + 1 ∧ gd r q = flipBase (gd s q)) := by
  intro fuel
  induction fuel with
  | zero =>
    intro s i r hr
    rw [mutateAux_zero] at hr
    by_cases hg : i + m.length ≤ s.length
    · rw [if_pos hg] at hr; cases hr
    · rw [if_neg hg] at hr
      cases hr
      refine ⟨[], by rw [matchesAux_zero, if_neg hg], fun p hp => absurd hp (List.not_mem_nil p),
        fun q hq => absurd rfl hq⟩
  | succ fuel ih =>
    intro s i r hr
    rw [mutateAux_succ] at hr
    by_cases hg : i + m.length ≤ s.length
    · rw [if_pos hg] at hr
      by_cases hsl : sliceEq s i m = true
      · have hlt : i + 1 < s.length := by omega
        rw [if_pos hsl, if_pos hlt] at hr
        have hmt : MatchAt s i m := matchAt_of_sliceEq (by omega) hsl
        have hgd : ∀ t, gd (s.set (i + 1) (flipBase (s.getD (i + 1) 'N'))) t =
            if t = i + 1 then flipBase (gd s (i + 1)) else gd s t := by
          intro t
          exact gd_set s (i + 1) t (flipBase (s.getD (i + 1) 'N')) hlt
        obtain ⟨ps, hps, hmem, hfr⟩ := ih _ _ r hr
        refine ⟨i :: ps, ?_, ?_, ?_⟩
        · rw [matchesAux_succ, if_pos hg, if_pos hsl, if_pos hlt, hps]
          rfl
        · intro p hp
          rcases List.mem_cons.mp hp with hp | hp
          · exact ⟨by omega, hp ▸ hmt⟩
          · obtain ⟨hple, hpm⟩ := hmem p hp
            refine ⟨by omega, ?_, fun j hj => ?_⟩
            · have := hpm.1
              rw [List.length_set] at this
              exact this
            · have := hpm.2 j hj
              rw [hgd, if_neg (by omega)] at this
              exact this
        · intro q hq
          by_cases hq1 : q = i + 1
          · subst hq1
            by_cases h2 : gd r (i + 1) =
                gd (s.set (i + 1) (flipBase (s.getD (i + 1) 'N'))) (i + 1)
            · rw [h2, hgd, if_pos rfl]
              exact ⟨i, List.mem_cons_self i ps, rfl, rfl⟩
            · obtain ⟨p, hpmem, hp2, _⟩ := hfr _ h2
              have := (hmem p hpmem).1
              omega
          · have h3 : gd (s.set (i + 1) (flipBase (s.getD (i + 1) 'N'))) q = gd s q := by
              rw [hgd, if_neg hq1]
            obtain ⟨p, hpmem, hp2, hp3⟩ := hfr q (by rw [h3]; exact hq)
            have hple := (hmem p hpmem).1
            refine ⟨p, List.mem_cons_of_mem i hpmem, hp2, ?_⟩
            rw [h3] at hp3
            exact hp3
      · rw [if_neg hsl] at hr
        obtain ⟨ps, hps, hmem, hfr⟩ := ih _ _ r hr
        refine ⟨ps, ?_, fun p hp => ?_, hfr⟩
        · rw [matchesAux_succ, if_pos hg, if_neg hsl]
          exact hps
        · obtain ⟨hple, hpm⟩ := hmem p hp
          exact ⟨by omega, hpm⟩
    · rw [if_neg hg] at hr
      cases hr
      refine ⟨[], by rw [matchesAux_succ, if_neg hg], fun p hp => absurd hp (List.not_mem_nil p),
        fun q hq => absurd rfl hq⟩

/-- Core step lemma: after mutating the second base of a match at `i`, any
occurrence of the motif in the new sequence already existed in the old one
and does not overlap the mutated position, provided the motif satisfies
`P1` and `P2`. -/
theorem step_preserve (m s : List Char) (i : Nat) (hm : 2 ≤ m.length)
    (hP1 : P1 m) (hP2 : P2 m) (hmt : MatchAt s i m) :
    ∀ p, MatchAt (s.set (i + 1) (flipBase (s.getD (i + 1) 'N'))) p m →
      MatchAt s p m ∧ (p + m.length ≤ i + 1 ∨ i + 1 < p) := by
  have hlt : i + 1 < s.length := by
    have := hmt.1
    omega
  have hgd : ∀ t, gd (s.set (i + 1) (flipBase (s.getD (i + 1) 'N'))) t =
      if t = i + 1 then flipBase (gd s (i + 1)) else gd s t :=
    fun t => gd_set s (i + 1) t (flipBase (s.getD (i + 1) 'N')) hlt
  have hs1 : gd s (i + 1) = gd m 1 := by
    have := hmt.2 1 (by omega)
    simpa using this
  intro p hp
  obtain ⟨hple, hpj⟩ := hp
  rw [List.length_set] at hple
  by_cases hA : p + m.length ≤ i + 1 ∨ i + 1 < p
  · refine ⟨⟨hple, fun j hj => ?_⟩, hA⟩
    have := hpj j hj
    rw [hgd, if_neg (by omega)] at this
    exact this
  · exfalso
    push_neg at hA
    obtain ⟨h1, h2⟩ := hA
    by_cases hpi : p = i
    · have hx := hpj 1 (by omega)
      rw [hgd, if_pos (by omega)] at hx
      rw [hs1] at hx
      exact flipBase_ne (gd m 1) hx
    · by_cases hpi1 : p = i + 1
      · have h0 := hpj 0 (by omega)
        rw [show p + 0 = i + 1 by omega, hgd, if_pos rfl, hs1] at h0
        obtain ⟨j, hj1, hj2, hjne⟩ := hP2 h0.symm
        apply hjne
        have ha := hpj j (by omega)
        rw [show p + j = i + 1 + j by omega, hgd, if_neg (by omega)] at ha
        have hb := hmt.2 (1 + j) (by omega)
        rw [show i + (1 + j) = i + 1 + j by omega] at hb
        rw [ha] at hb
        rw [Nat.add_comm 1 j] at hb
        exact hb
      · -- p < i, window overlaps the mutated position
        have hpi2 : p < i := by omega
        set k := i + 1 - p with hk
        have hk2 : 2 ≤ k := by omega
        have hklt : k < m.length := by omega
        have hpk : p + k = i + 1 := by omega
        have prem1 : gd m k = flipBase (gd m 1) := by
          have := hpj k (by omega)
          rw [hpk, hgd, if_pos rfl, hs1] at this
          exact this.symm
        have prem2 : gd m (k - 1) = gd m 0 := by
          have ha := hpj (k - 1) (by omega)
          rw [show p + (k - 1) = i by omega] at ha
          rw [hgd, if_neg (by omega)] at ha
          have hb := hmt.2 0 (by omega)
          rw [show i + 0 = i by omega] at hb
          rw [ha] at hb
          exact hb
        obtain ⟨j, hjlt, hjk, hjne⟩ := hP1 k hklt hk2 prem1 prem2
        apply hjne
        have ha := hpj j hjlt
        rw [hgd, if_neg (by omega)] at ha
        have hb := hmt.2 (j - k + 1) (by omega)
        rw [show i + (j - k + 1) = p + j by omega] at hb
        rw [ha] at hb
        exact hb

/-- Under `P1` and `P2`, the scan never creates occurrences: every occurrence
of the motif in the result already occurred in the input, and if any
occurrence lies at or beyond the scan position then at least one input
occurrence is destroyed. -/
theorem mutateAux_occ (m : List Char) (hm : 2 ≤ m.length) (hP1 : P1 m) (hP2 : P2 m) :
    ∀ (fuel : Nat) (s : List Char) (i : Nat) (r : List Char),
      mutateAux m fuel s i = some (MutStep.ok r) →
      (∀ p, MatchAt r p m → MatchAt s p m) ∧
      (∀ p, i ≤ p → MatchAt s p m → ∃ q, MatchAt s q m ∧ ¬ MatchAt r q m) := by
  intro fuel
  induction fuel with
  | zero =>
    intro s i r hr
    rw [mutateAux_zero] at hr
    by_cases hg : i + m.length ≤ s.length
    · rw [if_pos hg] at hr; cases hr
    · rw [if_neg hg] at hr
      cases hr
      refine ⟨fun p hp => hp, fun p hp hmp => absurd hmp.1 (by omega)⟩
  | succ fuel ih =>
    intro s i r hr
    rw [mutateAux_succ] at hr
    by_cases hg : i + m.length ≤ s.length
    · rw [if_pos hg] at hr
      by_cases hsl : sliceEq s i m = true
      · rw [if_pos hsl, if_pos (show i + 1 < s.length by omega)] at hr
        have hmt : MatchAt s i m := matchAt_of_sliceEq (by omega) hsl
        obtain ⟨ih1, _⟩ := ih _ _ r hr
        have hstep := step_preserve m s i hm hP1 hP2 hmt
        refine ⟨fun p hp => (hstep p (ih1 p hp)).1, fun p _ _ => ⟨i, hmt, fun hri => ?_⟩⟩
        have := (hstep i (ih1 i hri)).2
        omega
      · rw [if_neg hsl] at hr
        obtain ⟨ih1, ih2⟩ := ih _ _ r hr
        refine ⟨ih1, fun p hp hmp => ?_⟩
        have hne : p ≠ i := by
          intro he
          exact not_matchAt_of_sliceEq_false (by omega) hsl (he ▸ hmp)
        exact ih2 p (by omega) hmp
    · rw [if_neg hg] at hr
      cases hr
      refine ⟨fun p hp => hp, fun p hp hmp => absurd hmp.1 (by omega)⟩

/-- Under `P1`, `P2` and `P3`, the scan eliminates all occurrences: if no
occurrence starts before the scan position, the result has none at all. -/
theorem mutateAux_elim (m : List Char) (hm : 2 ≤ m.length)
    (hP1 : P1 m) (hP2 : P2 m) (hP3 : P3 m) :
    ∀ (fuel : Nat) (s : List Char) (i : Nat) (r : List Char),
      mutateAux m fuel s i = some (MutStep.ok r) →
      (∀ p, p < i → ¬ MatchAt s p m) → ∀ p, ¬ MatchAt r p m := by
  intro fuel
  induction fuel with
  | zero =>
    intro s i r hr hinv p
    rw [mutateAux_zero] at hr
    by_cases hg : i + m.length ≤ s.length
    · rw [if_pos hg] at hr; cases hr
    · rw [if_neg hg] at hr
      cases hr
      intro hp
      exact hinv p (by have := hp.1; omega) hp
  | succ fuel ih =>
    intro s i r hr hinv
    rw [mutateAux_succ] at hr
    by_cases hg : i + m.length ≤ s.length
    · rw [if_pos hg] at hr
      by_cases hsl : sliceEq s i m = true
      · rw [if_pos hsl, if_pos (show i + 1 < s.length by omega)] at hr
        have hmt : MatchAt s i m := matchAt_of_sliceEq (by omega) hsl
        have hstep := step_preserve m s i hm hP1 hP2 hmt
        refine ih _ _ r hr ?_
        intro p hp hmp
        obtain ⟨hs, hdisj⟩ := hstep p hmp
        rcases hdisj with hd | hd
        · exact hinv p (by omega) hs
        · -- p inside the skipped region: contradicts P3
          obtain ⟨j, hjlt, hjne⟩ := hP3 (p - i) (by omega) (by omega)
          apply hjne
          have ha := hs.2 j (by omega)
          have hb := hmt.2 (p - i + j) (by omega)
          rw [show i + (p - i + j) = p + j by omega] at hb
          rw [ha] at hb
          rw [show j + (p - i) = p - i + j by omega]
          exact hb
      · rw [if_neg hsl] at hr
        refine ih _ _ r hr ?_
        intro p hp
        by_cases hpi : p = i
        · exact hpi ▸ not_matchAt_of_sliceEq_false (by omega) hsl
        · exact hinv p (by omega)
    · rw [if_neg hg] at hr
      cases hr
      intro p hp
      exact hinv p (by have := hp.1; omega) hp

/-- If the motif occurs nowhere in `s`, the scan returns `s` unchanged. -/
theorem mutateAux_id (m : List Char) (hm0 : 0 < m.length) :
    ∀ (fuel : Nat) (s : List Char) (i : Nat), (∀ p, ¬ MatchAt s p m) →
      s.length + 1 ≤ fuel + i → mutateAux m fuel s i = some (MutStep.ok s) := by
  intro fuel
  induction fuel with
  | zero =>
    intro s i _ h
    rw [mutateAux_zero, if_neg (by omega)]
  | succ fuel ih =>
    intro s i hall h
    rw [mutateAux_succ]
    by_cases hg : i + m.length ≤ s.length
    · rw [if_pos hg]
      have hsl : ¬ sliceEq s i m = true := fun hc => hall i (matchAt_of_sliceEq hm0 hc)
      rw [if_neg hsl]
      exact ih s (i + 1) hall (by omega)
    · rw [if_neg hg]

/-- A motif that occurs nowhere in `s` leaves `s` unchanged. -/
theorem mutate_motif_id {m s : List Char} (hm0 : 0 < m.length)
    (h : containsSub s m = false) : mutate_motif s m = s := by
  have hall : ∀ p, ¬ MatchAt s p m := (containsSub_false_iff hm0).mp h
  unfold mutate_motif
  rw [mutateAux_id m hm0 (s.length + 1) s 0 hall (by omega)]

/-- For a motif satisfying `P1`, `P2`, `P3`, one pass of `mutate_motif`
eliminates every occurrence of the motif. -/
theorem mutate_motif_eliminates {m : List Char} (hm : 2 ≤ m.length)
    (hP1 : P1 m) (hP2 : P2 m) (hP3 : P3 m) (s : List Char) :
    containsSub (mutate_motif s m) m = false := by
  obtain ⟨r, hr, hmm, _⟩ := mutate_motif_spec m s hm
  rw [hmm]
  refine (containsSub_false_iff (by omega)).mpr ?_
  exact mutateAux_elim m hm hP1 hP2 hP3 (s.length + 1) s 0 r hr
    (fun p hp => absurd hp (Nat.not_lt_zero p))

/-- For a motif satisfying `P1`, `P2`, `P3`, `mutate_motif` is idempotent. -/
theorem mutate_motif_idem {m : List Char} (hm : 2 ≤ m.length)
    (hP1 : P1 m) (hP2 : P2 m) (hP3 : P3 m) (s : List Char) :
    mutate_motif (mutate_motif s m) m = mutate_motif s m :=
  mutate_motif_id (by omega) (mutate_motif_eliminates hm hP1 hP2 hP3 s)

theorem countP_lt_countP {α : Type} (l : List α) (f g : α → Bool)
    (hsub : ∀ x ∈ l, f x = true → g x = true) (x0 : α) (hx0 : x0 ∈ l)
    (hf : ¬ f x0 = true) (hg : g x0 = true) : l.countP f < l.countP g := by
  induction l with
  | nil => cases hx0
  | cons a t ih =>
    rw [List.countP_cons, List.countP_cons]
    have hmono : t.countP f ≤ t.countP g :=
      List.countP_mono_left (fun x hx => hsub x (List.mem_cons_of_mem a hx))
    rcases List.mem_cons.mp hx0 with h | h
    · subst h
      rw [if_neg hf, if_pos hg]
      omega
    · have := ih (fun x hx => hsub x (List.mem_cons_of_mem a hx)) h
      have hif : (if f a = true then 1 else 0) ≤ (if g a = true then 1 else 0) := by
        by_cases hfa : f a = true
        · rw [if_pos hfa, if_pos (hsub a (List.mem_cons_self a t) hfa)]
        · rw [if_neg hfa]
          omega
      omega

/-- For a motif satisfying `P1` and `P2` that occurs in `s`, one pass of
`mutate_motif` strictly reduces the number of occurrence positions. -/
theorem mutate_motif_strict {m : List Char} (hm : 2 ≤ m.length)
    (hP1 : P1 m) (hP2 : P2 m) {s : List Char} (hocc : 1 ≤ countOcc s m) :
    countOcc (mutate_motif s m) m < countOcc s m := by
  obtain ⟨r, hr, hmm, hlen⟩ := mutate_motif_spec m s hm
  obtain ⟨ih1, ih2⟩ := mutateAux_occ m hm hP1 hP2 (s.length + 1) s 0 r hr
  unfold countOcc at hocc
  have hpos : 0 < List.countP (fun p => sliceEq s p m) (List.range (s.length + 1)) := by omega
  obtain ⟨p0, _, hp0⟩ := List.countP_pos_iff.mp hpos
  have hm0 : MatchAt s p0 m := matchAt_of_sliceEq (by omega) hp0
  obtain ⟨q, hq, hnq⟩ := ih2 p0 (Nat.zero_le p0) hm0
  rw [hmm]
  unfold countOcc
  rw [hlen]
  refine countP_lt_countP _ _ _ ?_ q ?_ ?_ ?_
  · intro x _ hx
    exact (sliceEq_true_iff (by omega)).mpr (ih1 x (matchAt_of_sliceEq (by omega) hx))
  · refine List.mem_range.mpr ?_
    have := hq.1
    omega
  · intro hc
    exact hnq (matchAt_of_sliceEq (by omega) hc)
  · exact (sliceEq_true_iff (by omega)).mpr hq

theorem lookup_RE_SITE (name : String) (motif : List Char)
    (h : List.lookup name RE_SITE = some motif) :
    (name = "EcoRI" ∧ motif = "GAATTC".data) ∨ (name = "SacI" ∧ motif = "GAGCTC".data) ∨
    (name = "KpnI" ∧ motif = "GGTACC".data) ∨ (name = "SmaI" ∧ motif = "CCCGGG".data) ∨
    (name = "BamHI" ∧ motif = "GGATCC".data) ∨ (name = "XbaI" ∧ motif = "TCTAGA".data) ∨
    (name = "SalI" ∧ motif = "GTCGAC".data) ∨ (name = "PstI" ∧ motif = "CTGCAG".data) ∨
    (name = "SphI" ∧ motif = "GCATGC".data) ∨ (name = "HindIII" ∧ motif = "AAGCTT".data) := by
  simp only [RE_SITE, List.lookup_cons, List.lookup_nil] at h
  repeat' split at h
  all_goals simp_all [beq_iff_eq]

theorem mutateAux_nil_none :
    ∀ (fuel : Nat) (s : List Char), 2 ≤ s.length → mutateAux [] fuel s 0 = none := by
  intro fuel
  induction fuel with
  | zero =>
    intro s _
    rw [mutateAux_zero, if_pos (by simp)]
  | succ fuel ih =>
    intro s hs
    rw [mutateAux_succ, if_pos (by simp)]
    have hsl : sliceEq s 0 [] = true := by simp [sliceEq]
    rw [if_pos hsl, if_pos (by omega)]
    have := ih (s.set (0 + 1) (flipBase (s.getD (0 + 1) 'N'))) (by rw [List.length_set]; omega)
    simpa using this

/-- C2: for every sequence containing the EcoRI motif `"GAATTC"`, a single
application of `mutate_motif` eliminates every exact occurrence of it. -/
theorem C2_ecoRI_eliminated (s : List Char)
    (h : containsSub s "GAATTC".data = true) :
    containsSub (mutate_motif s "GAATTC".data) "GAATTC".data = false :=
  mutate_motif_eliminates (by decide) (by decide) (by decide) (by decide) s

theorem C2_ecoRI_eliminated_witness :
    containsSub "TGAATTCT".data "GAATTC".data = true ∧
      containsSub (mutate_motif "TGAATTCT".data "GAATTC".data) "GAATTC".data = false :=
  ⟨by decide, C2_ecoRI_eliminated "TGAATTCT".data (by decide)⟩

/-- C3 counterexample: idempotence of `mutate_motif` fails on the catalog
motifs of SphI, SalI and PstI; a second application changes the output again. -/
theorem C3_idempotent_counterexample :
    List.lookup "SphI" RE_SITE = some "GCATGC".data ∧
    mutate_motif (mutate_motif "GCATGCATGC".data "GCATGC".data) "GCATGC".data ≠
      mutate_motif "GCATGCATGC".data "GCATGC".data ∧
    List.lookup "SalI" RE_SITE = some "GTCGAC".data ∧
    mutate_motif (mutate_motif "GTCGTCGAC".data "GTCGAC".data) "GTCGAC".data ≠
      mutate_motif "GTCGTCGAC".data "GTCGAC".data ∧
    List.lookup "PstI" RE_SITE = some "CTGCAG".data ∧
    mutate_motif (mutate_motif "CTGCTGCAG".data "CTGCAG".data) "CTGCAG".data ≠
      mutate_motif "CTGCTGCAG".data "CTGCAG".data := by
  decide

/-- C3 (amended): `mutate_motif` is idempotent for every motif in the fixed
catalog `RE_SITE` except those of SalI (`"GTCGAC"`), PstI (`"CTGCAG"`) and
SphI (`"GCATGC"`), whose self-overlapping or occurrence-recreating structure
lets an occurrence survive or reappear after the first pass. -/
theorem C3_idempotent_amended (name : String) (motif s : List Char)
    (hlk : List.lookup name RE_SITE = some motif)
    (h1 : name ≠ "SalI") (h2 : name ≠ "PstI") (h3 : name ≠ "SphI") :
    mutate_motif (mutate_motif s motif) motif = mutate_motif s motif := by
  rcases lookup_RE_SITE name motif hlk with
    hc | hc | hc | hc | hc | hc | hc | hc | hc | hc <;>
    first
      | exact absurd hc.1 h1
      | exact absurd hc.1 h2
      | exact absurd hc.1 h3
      | (rw [hc.2]
         exact mutate_motif_idem (by decide) (by decide) (by decide) (by decide) s)

theorem C3_idempotent_amended_witness :
    mutate_motif (mutate_motif "TGAATTCT".data "GAATTC".data) "GAATTC".data =
      mutate_motif "TGAATTCT".data "GAATTC".data :=
  C3_idempotent_amended "EcoRI" "GAATTC".data "TGAATTCT".data
    (by decide) (by decide) (by decide) (by decide)

/-- C4 counterexample: for the SalI and PstI motifs the number of occurrence
positions is not strictly reduced (the mutation recreates an occurrence). -/
theorem C4_strict_counterexample :
    List.lookup "SalI" RE_SITE = some "GTCGAC".data ∧
    1 ≤ countOcc "GTCGTCGAC".data "GTCGAC".data ∧
    ¬ (countOcc (mutate_motif "GTCGTCGAC".data "GTCGAC".data) "GTCGAC".data <
        countOcc "GTCGTCGAC".data "GTCGAC".data) ∧
    List.lookup "PstI" RE_SITE = some "CTGCAG".data ∧
    1 ≤ countOcc "CTGCTGCAG".data "CTGCAG".data ∧
    ¬ (countOcc (mutate_motif "CTGCTGCAG".data "CTGCAG".data) "CTGCAG".data <
        countOcc "CTGCTGCAG".data "CTGCAG".data) := by
  decide

/-- C4 (amended): for every catalog motif except those of SalI (`"GTCGAC"`)
and PstI (`"CTGCAG"`), one pass of `mutate_motif` on a sequence containing
the motif strictly reduces the number of its occurrence positions. -/
theorem C4_strict_amended (name : String) (motif s : List Char)
    (hlk : List.lookup name RE_SITE = some motif)
    (h1 : name ≠ "SalI") (h2 : name ≠ "PstI")
    (hocc : 1 ≤ countOcc s motif) :
    countOcc (mutate_motif s motif) motif < countOcc s motif := by
  rcases lookup_RE_SITE name motif hlk with
    hc | hc | hc | hc | hc | hc | hc | hc | hc | hc <;>
    first
      | exact absurd hc.1 h1
      | exact absurd hc.1 h2
      | (rw [hc.2] at hocc ⊢
         exact mutate_motif_strict (by decide) (by decide) (by decide) hocc)

theorem C4_strict_amended_witness :
    countOcc (mutate_motif "TGAATTCT".data "GAATTC".data) "GAATTC".data <
      countOcc "TGAATTCT".data "GAATTC".data :=
  C4_strict_amended "EcoRI" "GAATTC".data "TGAATTCT".data
    (by decide) (by decide) (by decide) (by decide)

/-- C9: for motifs of length at least 2 the scan terminates within
`len + 1` iterations and never writes out of bounds (result `ok`); every
catalog motif has length 6; for a length-1 motif matching the last base the
write at `i+1` is out of bounds (Python `IndexError`); for the empty motif
on a sequence of length at least 2 the loop never terminates (all fuels are
exhausted). -/
theorem C9_mutate_safety :
    (∀ (s m : List Char), 2 ≤ m.length →
        ∃ r, mutateAux m (s.length + 1) s 0 = some (MutStep.ok r)) ∧
    (∀ x ∈ RE_SITE, x.2.length = 6) ∧
    (∀ fuel : Nat, mutateAux ['A'] (fuel + 1) ['A'] 0 = some MutStep.oob) ∧
    (∀ (s : List Char) (fuel : Nat), 2 ≤ s.length → mutateAux [] fuel s 0 = none) := by
  refine ⟨fun s m hm => ?_, by decide, fun fuel => ?_, fun s fuel hs => ?_⟩
  · obtain ⟨r, hr, _⟩ := mutateAux_total m hm (s.length + 1) s 0 (by omega)
    exact ⟨r, hr⟩
  · rw [mutateAux_succ, if_pos (by decide), if_pos (by decide), if_neg (by decide)]
  · exact mutateAux_nil_none fuel s hs

theorem C9_mutate_safety_witness : mutateAux [] 5 "AA".data 0 = none :=
  C9_mutate_safety.2.2.2 "AA".data 5 (by decide)

/-- C10: for motifs of length at least 2, `mutate_motif` preserves the
length; every position of the scan's match trace `mutate_matches` is an
occurrence of the motif in the original sequence; every position that is not
the second position (offset `+1`) of some occurrence matched during the scan
carries its original base unchanged (contrapositive: any changed position is
`p + 1` for a traced match `p`, and carries the flipped base); if the motif
does not occur, the sequence is returned unchanged. -/
theorem C10_mutate_frame (s m : List Char) (hm : 2 ≤ m.length) :
    (mutate_motif s m).length = s.length ∧
    (∀ p ∈ mutate_matches s m, MatchAt s p m) ∧
    (∀ q, gd (mutate_motif s m) q ≠ gd s q →
      ∃ p ∈ mutate_matches s m, q = p + 1 ∧
        gd (mutate_motif s m) q = flipBase (gd s q)) ∧
    (containsSub s m = false → mutate_motif s m = s) := by
  obtain ⟨r, hr, hmm, hlen⟩ := mutate_motif_spec m s hm
  obtain ⟨ps, hps, hmem, hfr⟩ := mutateAux_matches m hm (s.length + 1) s 0 r hr
  have hmatches : mutate_matches s m = ps := by
    unfold mutate_matches
    rw [hps]
    rfl
  refine ⟨by rw [hmm]; exact hlen, ?_, ?_, fun h => mutate_motif_id (by omega) h⟩
  · intro p hp
    rw [hmatches] at hp
    exact (hmem p hp).2
  · intro q hq
    rw [hmm] at hq ⊢
    obtain ⟨p, hpmem, hp2, hp3⟩ := hfr q hq
    exact ⟨p, by rw [hmatches]; exact hpmem, hp2, hp3⟩

theorem C10_mutate_frame_witness :
    (mutate_motif "TGAATTCT".data "GAATTC".data).length = "TGAATTCT".data.length :=
  (C10_mutate_frame "TGAATTCT".data "GAATTC".data (by decide)).1

/-! ### The ori finder -/

theorem mem_pyRange_lt {M step x : Nat} (hstep : 0 < step) (hx : x ∈ pyRange M step) :
    x < M := by
  unfold pyRange at hx
  rw [if_neg (by omega)] at hx
  obtain ⟨k, hk, rfl⟩ := List.mem_map.mp hx
  have h1 : k + 1 ≤ (M + step - 1) / step := List.mem_range.mp hk
  have h2 : (k + 1) * step ≤ ((M + step - 1) / step) * step := Nat.mul_le_mul_right step h1
  have h3 : ((M + step - 1) / step) * step ≤ M + step - 1 := Nat.div_mul_le_self _ _
  have h4 : (k + 1) * step = k * step + step := by ring
  omega

theorem zero_mem_pyRange {M step : Nat} (hM : 0 < M) (hstep : 0 < step) :
    0 ∈ pyRange M step := by
  unfold pyRange
  rw [if_neg (by omega)]
  refine List.mem_map.mpr ⟨0, List.mem_range.mpr ?_, Nat.zero_mul step⟩
  rw [Nat.lt_iff_add_one_le, Nat.le_div_iff_mul_le hstep]
  omega

theorem pyRange_pairwise (M step : Nat) : List.Pairwise (· < ·) (pyRange M step) := by
  unfold pyRange
  split
  · exact List.Pairwise.nil
  · rename_i hstep
    refine List.Pairwise.map _ ?_ (List.pairwise_lt_range _)
    intro a b hab
    exact (Nat.mul_lt_mul_right (by omega)).mpr hab

theorem pyRange_head {M step : Nat} (hM : 0 < M) (hstep : 0 < step) :
    ∃ rest, pyRange M step = 0 :: rest := by
  unfold pyRange
  rw [if_neg (by omega)]
  have h1 : 0 < (M + step - 1) / step := by
    rw [Nat.lt_iff_add_one_le, Nat.le_div_iff_mul_le hstep]
    omega
  obtain ⟨c, hc⟩ : ∃ c, (M + step - 1) / step = c + 1 :=
    ⟨(M + step - 1) / step - 1, by omega⟩
  rw [hc, List.range_succ_eq_map, List.map_cons]
  exact ⟨List.map (fun k => k * step) (List.map Nat.succ (List.range c)),
    by rw [Nat.zero_mul]⟩

theorem oriFracU_nonneg (u : List Char) (w x : Nat) : 0 ≤ oriFracU u w x := by
  unfold oriFracU
  rw [Rat.mkRat_eq_divInt]
  exact Rat.divInt_nonneg (by positivity) (by positivity)

theorem oriStep_eq (u : List Char) (w : Nat) (acc : Nat × ℚ) (x : Nat)
    (hx : (u.drop x).take w ≠ []) :
    oriStep u w acc x = if acc.2 < oriFracU u w x then (x, oriFracU u w x) else acc := by
  simp only [oriStep, oriFracU]
  rw [if_neg hx]

theorem oriStep_fst (u : List Char) (w : Nat) (acc : Nat × ℚ) (x : Nat) :
    (oriStep u w acc x).1 = acc.1 ∨ (oriStep u w acc x).1 = x := by
  simp only [oriStep]
  by_cases h1 : (u.drop x).take w = []
  · rw [if_pos h1]
    left
    rfl
  · rw [if_neg h1]
    by_cases h2 : acc.2 < mkRat (at_count ((u.drop x).take w)) ((u.drop x).take w).length
    · rw [if_pos h2]
      right
      rfl
    · rw [if_neg h2]
      left
      rfl

theorem foldl_oriStep_fst (u : List Char) (w : Nat) :
    ∀ (l : List Nat) (acc : Nat × ℚ),
      (l.foldl (oriStep u w) acc).1 = acc.1 ∨ (l.foldl (oriStep u w) acc).1 ∈ l := by
  intro l
  induction l with
  | nil =>
    intro acc
    left
    rfl
  | cons x t ih =>
    intro acc
    rw [List.foldl_cons]
    rcases ih (oriStep u w acc x) with h | h
    · rcases oriStep_fst u w acc x with h2 | h2
      · left
        rw [h, h2]
      · right
        rw [h, h2]
        exact List.mem_cons_self x t
    · right
      exact List.mem_cons_of_mem x h

/-- First-maximum characterisation of the `find_ori` fold: either no window
beats the initial score, or the result is the first scanned start achieving
the running maximum (strictly greater than everything before it, at least as
great as everything after it). -/
theorem foldl_oriStep_spec (u : List Char) (w : Nat) :
    ∀ (l : List Nat) (acc : Nat × ℚ),
      (∀ x ∈ l, (u.drop x).take w ≠ []) →
      (l.foldl (oriStep u w) acc = acc ∧ ∀ x ∈ l, oriFracU u w x ≤ acc.2) ∨
      (∃ l1 x l2, l = l1 ++ x :: l2 ∧
        l.foldl (oriStep u w) acc = (x, oriFracU u w x) ∧
        acc.2 < oriFracU u w x ∧
        (∀ y ∈ l1, oriFracU u w y < oriFracU u w x) ∧
        (∀ y ∈ l2, oriFracU u w y ≤ oriFracU u w x)) := by
  intro l
  induction l with
  | nil =>
    intro acc _
    left
    exact ⟨rfl, fun x hx => absurd hx (List.not_mem_nil x)⟩
  | cons x t ih =>
    intro acc hne
    have hx : (u.drop x).take w ≠ [] := hne x (List.mem_cons_self x t)
    rw [List.foldl_cons, oriStep_eq u w acc x hx]
    by_cases hcmp : acc.2 < oriFracU u w x
    · rw [if_pos hcmp]
      rcases ih (x, oriFracU u w x) (fun y hy => hne y (List.mem_cons_of_mem x hy)) with
        ⟨heq, hall⟩ | ⟨l1, p, l2, hsplit, heq, hgt, hl1, hl2⟩
      · right
        exact ⟨[], x, t, rfl, heq, hcmp, fun y hy => absurd hy (List.not_mem_nil y),
          fun y hy => hall y hy⟩
      · right
        refine ⟨x :: l1, p, l2, by rw [hsplit, List.cons_append], heq, lt_trans hcmp hgt, ?_, hl2⟩
        intro y hy
        rcases List.mem_cons.mp hy with h | h
        · rw [h]
          exact hgt
        · exact hl1 y h
    · rw [if_neg hcmp]
      rcases ih acc (fun y hy => hne y (List.mem_cons_of_mem x hy)) with
        ⟨heq, hall⟩ | ⟨l1, p, l2, hsplit, heq, hgt, hl1, hl2⟩
      · left
        refine ⟨heq, fun y hy => ?_⟩
        rcases List.mem_cons.mp hy with h | h
        · rw [h]
          exact not_lt.mp hcmp
        · exact hall y h
      · right
        refine ⟨x :: l1, p, l2, by rw [hsplit, List.cons_append], heq, hgt, ?_, hl2⟩
        intro y hy
        rcases List.mem_cons.mp hy with h | h
        · rw [h]
          exact lt_of_le_of_lt (not_lt.mp hcmp) hgt
        · exact hl1 y h

theorem find_ori_pos (s : List Char) (window step : Nat) (hs : 0 < s.length) :
    find_ori s window step =
      ((bestOf s window step).1,
        min ((bestOf s window step).1 + oriW s window) s.length) := by
  unfold find_ori bestOf oriStarts oriW
  simp only [List.length_map]
  rw [if_neg (by omega)]

theorem find_ori_nil (window step : Nat) : find_ori [] window step = (0, 0) := rfl

theorem oriW_le (s : List Char) (window : Nat) : oriW s window ≤ s.length := by
  unfold oriW
  split <;> omega

theorem oriW_pos (s : List Char) (window : Nat) (hs : 0 < s.length) (hw : 0 < window) :
    0 < oriW s window := by
  unfold oriW
  split <;> omega

theorem oriStarts_lt {s : List Char} {window step x : Nat} (hstep : 0 < step)
    (hx : x ∈ oriStarts s window step) : x ≤ s.length - oriW s window := by
  unfold oriStarts at hx
  have h1 := mem_pyRange_lt hstep hx
  have h2 := oriW_le s window
  omega

theorem oriStarts_win_ne_nil {s : List Char} {window step x : Nat}
    (hs : 0 < s.length) (hw : 0 < window) (hstep : 0 < step)
    (hx : x ∈ oriStarts s window step) :
    ((s.map Char.toUpper).drop x).take (oriW s window) ≠ [] := by
  have h1 := oriStarts_lt hstep hx
  have h2 := oriW_le s window
  have h3 := oriW_pos s window hs hw
  intro hc
  have := congrArg List.length hc
  rw [List.length_take, List.length_drop, List.length_map] at this
  simp only [List.length_nil] at this
  omega

theorem zero_mem_oriStarts (s : List Char) (window step : Nat) (hstep : 0 < step) :
    0 ∈ oriStarts s window step := by
  unfold oriStarts
  exact zero_mem_pyRange (by omega) hstep

theorem find_ori_window_le (s : List Char) (window step : Nat) (hpos : 0 < s.length)
    (hstep : 0 < step) :
    ∃ a, a + oriW s window ≤ s.length ∧
      find_ori s window step = (a, a + oriW s window) := by
  rw [find_ori_pos s window step hpos]
  have hb : (bestOf s window step).1 = 0 ∨
      (bestOf s window step).1 ∈ oriStarts s window step :=
    foldl_oriStep_fst (s.map Char.toUpper) (oriW s window) (oriStarts s window step) (0, -1)
  have hwle := oriW_le s window
  have hble : (bestOf s window step).1 + oriW s window ≤ s.length := by
    rcases hb with h | h
    · omega
    · have := oriStarts_lt hstep h
      omega
  refine ⟨(bestOf s window step).1, hble, ?_⟩
  rw [Nat.min_eq_left hble]

/-- C5: for a non-empty sequence and `0 < window ≤ len` (with positive step),
`find_ori` returns `(start, end)` with `start ≤ end ≤ len` and
`end - start = window`; when `window > len` it returns a window of width
`len`; on the empty sequence it returns `(0, 0)`. -/
theorem C5_find_ori_window :
    (∀ (s : List Char) (window step : Nat), s ≠ [] → 0 < window → window ≤ s.length →
      0 < step →
      (find_ori s window step).1 ≤ (find_ori s window step).2 ∧
      (find_ori s window step).2 ≤ s.length ∧
      (find_ori s window step).2 - (find_ori s window step).1 = window) ∧
    (∀ (s : List Char) (window step : Nat), s ≠ [] → s.length < window → 0 < step →
      (find_ori s window step).2 - (find_ori s window step).1 = s.length) ∧
    (∀ window step : Nat, find_ori [] window step = (0, 0)) := by
  refine ⟨fun s window step hs hw hwle hstep => ?_,
    fun s window step hs hw hstep => ?_, fun window step => find_ori_nil window step⟩
  · have hpos : 0 < s.length := List.length_pos.mpr hs
    have hWeq : oriW s window = window := by
      unfold oriW
      rw [if_neg (by omega)]
    obtain ⟨a, hle, heq⟩ := find_ori_window_le s window step hpos hstep
    rw [hWeq] at hle heq
    rw [heq]
    refine ⟨?_, ?_, ?_⟩
    · show a ≤ a + window
      omega
    · show a + window ≤ s.length
      omega
    · show a + window - a = window
      omega
  · have hpos : 0 < s.length := List.length_pos.mpr hs
    have hWeq : oriW s window = s.length := by
      unfold oriW
      rw [if_pos (by omega)]
    obtain ⟨a, hle, heq⟩ := find_ori_window_le s window step hpos hstep
    rw [hWeq] at hle heq
    rw [heq]
    show a + s.length - a = s.length
    omega

theorem C5_find_ori_window_witness :
    (find_ori "ACGT".data 2 1).1 ≤ (find_ori "ACGT".data 2 1).2 ∧
    (find_ori "ACGT".data 2 1).2 ≤ "ACGT".data.length ∧
    (find_ori "ACGT".data 2 1).2 - (find_ori "ACGT".data 2 1).1 = 2 :=
  C5_find_ori_window.1 "ACGT".data 2 1 (by decide) (by decide) (by decide) (by decide)

theorem foldl_uniform (u : List Char) (w : Nat) (l : List Nat) (c : ℚ)
    (hne : ∀ x ∈ l, (u.drop x).take w ≠ []) (huni : ∀ x ∈ l, oriFracU u w x = c)
    (hc : (0 : ℚ) ≤ c) (hl : ∃ rest, l = 0 :: rest) :
    l.foldl (oriStep u w) (0, -1) = (0, c) := by
  obtain ⟨rest, rfl⟩ := hl
  rw [List.foldl_cons, oriStep_eq u w (0, -1) 0 (hne 0 (List.mem_cons_self 0 rest))]
  rw [huni 0 (List.mem_cons_self 0 rest)]
  rw [if_pos (show ((0 : Nat), (-1 : ℚ)).2 < c from by
    show (-1 : ℚ) < c
    linarith)]
  rcases foldl_oriStep_spec u w rest (0, c)
      (fun x hx => hne x (List.mem_cons_of_mem 0 hx)) with
    ⟨heq, _⟩ | ⟨l1, p, l2, hsplit, heq, hgt, _, _⟩
  · exact heq
  · exfalso
    have hp : p ∈ rest := by
      rw [hsplit]
      exact List.mem_append_right _ (List.mem_cons_self p l2)
    have := huni p (List.mem_cons_of_mem 0 hp)
    rw [this] at hgt
    exact absurd hgt (lt_irrefl c)

/-- C6: `find_ori` selects the first scanned start achieving the maximal
AT-fraction (strict-`>` tie-break): the returned start is a scanned start,
its score is maximal, every earlier scanned start scores strictly less, and
if all windows score equally the returned start is 0; in particular
`find_ori ("A"*2000)` with the default window 800 and step 100 is `(0, 800)`. -/
theorem C6_first_max :
    (∀ (s : List Char) (window step : Nat), s ≠ [] → 0 < window → 0 < step →
      (find_ori s window step).1 ∈ oriStarts s window step ∧
      (∀ q ∈ oriStarts s window step,
        oriFrac s window q ≤ oriFrac s window (find_ori s window step).1) ∧
      (∀ q ∈ oriStarts s window step, q < (find_ori s window step).1 →
        oriFrac s window q < oriFrac s window (find_ori s window step).1) ∧
      ((∀ q ∈ oriStarts s window step, oriFrac s window q = oriFrac s window 0) →
        (find_ori s window step).1 = 0)) ∧
    find_ori (List.replicate 2000 'A') 800 100 = (0, 800) := by
  constructor
  · intro s window step hs hw hstep
    have hpos : 0 < s.length := List.length_pos.mpr hs
    have hfst : (find_ori s window step).1 = (bestOf s window step).1 := by
      rw [find_ori_pos s window step hpos]
    have hne : ∀ x ∈ oriStarts s window step,
        ((s.map Char.toUpper).drop x).take (oriW s window) ≠ [] :=
      fun x hx => oriStarts_win_ne_nil hpos hw hstep hx
    have hfr : ∀ q, oriFrac s window q = oriFracU (s.map Char.toUpper) (oriW s window) q :=
      fun q => rfl
    have h0 : 0 ∈ oriStarts s window step := zero_mem_oriStarts s window step hstep
    rcases foldl_oriStep_spec (s.map Char.toUpper) (oriW s window)
        (oriStarts s window step) (0, -1) hne with
      ⟨heq, hall⟩ | ⟨l1, p, l2, hsplit, heq, hgt, hl1, hl2⟩
    · exfalso
      have h1 : oriFracU (s.map Char.toUpper) (oriW s window) 0 ≤ -1 := hall 0 h0
      have h2 := oriFracU_nonneg (s.map Char.toUpper) (oriW s window) 0
      linarith
    · have hbest : bestOf s window step =
          (p, oriFracU (s.map Char.toUpper) (oriW s window) p) := heq
      have hp1 : (find_ori s window step).1 = p := by
        rw [hfst, hbest]
      have hmem : p ∈ oriStarts s window step := by
        rw [hsplit]
        exact List.mem_append_right _ (List.mem_cons_self p l2)
      have hmax : ∀ q ∈ oriStarts s window step,
          oriFracU (s.map Char.toUpper) (oriW s window) q ≤
            oriFracU (s.map Char.toUpper) (oriW s window) p := by
        intro q hq
        rw [hsplit] at hq
        rcases List.mem_append.mp hq with h | h
        · exact le_of_lt (hl1 q h)
        · rcases List.mem_cons.mp h with h | h
          · rw [h]
          · exact hl2 q h
      have hstrict : ∀ q ∈ oriStarts s window step, q < p →
          oriFracU (s.map Char.toUpper) (oriW s window) q <
            oriFracU (s.map Char.toUpper) (oriW s window) p := by
        intro q hq hlt
        rw [hsplit] at hq
        rcases List.mem_append.mp hq with h | h
        · exact hl1 q h
        · exfalso
          rcases List.mem_cons.mp h with h | h
          · omega
          · have hp2 : List.Pairwise (· < ·) (oriStarts s window step) :=
              pyRange_pairwise (max 1 (s.length - oriW s window + 1)) step
            rw [hsplit] at hp2
            have h3 := (List.pairwise_append.mp hp2).2.1
            have hplt : p < q := (List.pairwise_cons.mp h3).1 q h
            omega
      refine ⟨by rw [hp1]; exact hmem, ?_, ?_, ?_⟩
      · intro q hq
        rw [hp1, hfr, hfr]
        exact hmax q hq
      · intro q hq hlt
        rw [hp1] at hlt
        rw [hp1, hfr, hfr]
        exact hstrict q hq hlt
      · intro huni
        rw [hp1]
        by_contra hne0
        have hplt : 0 < p := Nat.pos_of_ne_zero hne0
        have h4 := hstrict 0 h0 hplt
        have h5 : oriFrac s window p = oriFrac s window 0 := huni p hmem
        rw [hfr, hfr] at h5
        rw [h5] at h4
        exact absurd h4 (lt_irrefl _)
  · have hmap : (List.replicate 2000 'A').map Char.toUpper = List.replicate 2000 'A' := by
      rw [List.map_replicate, show Char.toUpper 'A' = 'A' from by decide]
    have hW : oriW (List.replicate 2000 'A') 800 = 800 := by
      unfold oriW
      rw [List.length_replicate, if_neg (by omega)]
    have hx_le : ∀ x ∈ oriStarts (List.replicate 2000 'A') 800 100, x ≤ 1200 := by
      intro x hx
      have h1 := oriStarts_lt (by omega) hx
      rw [List.length_replicate, hW] at h1
      omega
    have hwin : ∀ x ∈ oriStarts (List.replicate 2000 'A') 800 100,
        ((List.replicate 2000 'A').drop x).take 800 = List.replicate 800 'A' := by
      intro x hx
      rw [List.drop_replicate, List.take_replicate]
      rw [Nat.min_eq_left (by have := hx_le x hx; omega)]
    have hne : ∀ x ∈ oriStarts (List.replicate 2000 'A') 800 100,
        ((List.replicate 2000 'A').drop x).take 800 ≠ [] := by
      intro x hx hc
      rw [hwin x hx] at hc
      have := congrArg List.length hc
      rw [List.length_replicate, List.length_nil] at this
      omega
    have huni : ∀ x ∈ oriStarts (List.replicate 2000 'A') 800 100,
        oriFracU (List.replicate 2000 'A') 800 x = 1 := by
      intro x hx
      unfold oriFracU at_count
      rw [hwin x hx, List.countP_replicate, if_pos (by decide), List.length_replicate]
      decide
    have hhead : ∃ rest, oriStarts (List.replicate 2000 'A') 800 100 = 0 :: rest := by
      unfold oriStarts
      exact pyRange_head (by omega) (by omega)
    have hfold := foldl_uniform (List.replicate 2000 'A') 800
      (oriStarts (List.replicate 2000 'A') 800 100) 1 hne huni (by norm_num) hhead
    have hbest : bestOf (List.replicate 2000 'A') 800 100 = (0, 1) := by
      unfold bestOf
      rw [hmap, hW]
      exact hfold
    rw [find_ori_pos _ _ _ (by rw [List.length_replicate]; omega), hbest, hW,
      List.length_replicate]
    rfl

theorem C6_first_max_witness :
    (find_ori "ACGT".data 2 1).1 ∈ oriStarts "ACGT".data 2 1 :=
  (C6_first_max.1 "ACGT".data 2 1 (by decide) (by decide) (by decide)).1

/-! ### Builders and the assembler -/

theorem pyJoin_nil : pyJoin [] = [] := rfl

theorem pyJoin_cons (x : List Char) (xs : List (List Char)) :
    pyJoin (x :: xs) = x ++ pyJoin xs := rfl

theorem pyJoin_append (xs ys : List (List Char)) :
    pyJoin (xs ++ ys) = pyJoin xs ++ pyJoin ys := by
  induction xs with
  | nil => rw [List.nil_append, pyJoin_nil, List.nil_append]
  | cons x t ih => rw [List.cons_append, pyJoin_cons, pyJoin_cons, ih, List.append_assoc]

theorem mcs_fold (l : List String) (acc : List (List Char)) :
    l.foldl (fun pieces name => match List.lookup name RE_SITE with
      | none => pieces
      | some site => pieces ++ [site]) acc =
    acc ++ l.filterMap (fun name => List.lookup name RE_SITE) := by
  induction l generalizing acc with
  | nil => rw [List.foldl_nil, List.filterMap_nil, List.append_nil]
  | cons x t ih =>
    rw [List.foldl_cons, List.filterMap_cons]
    cases hx : List.lookup x RE_SITE with
    | none =>
      simp only [hx]
      exact ih acc
    | some site =>
      simp only [hx]
      rw [ih (acc ++ [site]), List.append_assoc, List.singleton_append]

/-- C7: `build_mcs` concatenates, in input order and with no spacer, the
catalog motifs of exactly the names present in `RE_SITE`; unknown names are
skipped; the two example evaluations from the specification hold. -/
theorem C7_build_mcs :
    (∀ enzymes : List String,
      build_mcs enzymes =
        pyJoin (enzymes.filterMap (fun name => List.lookup name RE_SITE))) ∧
    build_mcs ["EcoRI", "BamHI"] = "GAATTC".data ++ "GGATCC".data ∧
    build_mcs ["EcoRI", "Unknown", "BamHI"] = "GAATTC".data ++ "GGATCC".data := by
  refine ⟨fun enzymes => ?_, by decide, by decide⟩
  unfold build_mcs
  rw [mcs_fold, List.nil_append]

theorem markers_fold_join (markers : List (String × List Char)) :
    ∀ (l : List String) (acc : List (List Char)),
      pyJoin (l.foldl (fun acc2 ab_name => match List.lookup ab_name markers with
        | none => acc2
        | some mseq => acc2 ++ ["AAAA".data, mseq]) acc) =
      pyJoin acc ++ pyJoin (l.filterMap (fun ab => (List.lookup ab markers).map
        (fun mseq => "AAAA".data ++ mseq))) := by
  intro l
  induction l with
  | nil =>
    intro acc
    rw [List.foldl_nil, List.filterMap_nil, pyJoin_nil, List.append_nil]
  | cons x t ih =>
    intro acc
    rw [List.foldl_cons, List.filterMap_cons]
    cases hx : List.lookup x markers with
    | none =>
      simp only [hx, Option.map_none']
      exact ih acc
    | some mseq =>
      simp only [hx, Option.map_some']
      rw [ih (acc ++ ["AAAA".data, mseq]), pyJoin_append, pyJoin_cons]
      rw [pyJoin_cons, pyJoin_cons, pyJoin_nil, List.append_nil]
      rw [List.append_assoc, List.append_assoc]

/-- C1: the sequence assembled by `build_plasmid` before any removal pass is
exactly: the ori block selected by `find_ori`, then the constant replication
core, then for each antibiotic of the design present in the marker table (in
order) the spacer `"AAAA"` followed by its marker, then — only when
`build_mcs` is non-empty — the spacer followed by the MCS. -/
theorem C1_assembly_order (input_seq : List Char) (design : PlasmidDesign)
    (markers : List (String × List Char)) :
    assemble_plasmid input_seq design markers =
      ((input_seq.take (find_ori input_seq 800 100).2).drop (find_ori input_seq 800 100).1)
        ++ build_replication_core
        ++ pyJoin (design.antibiotics.filterMap (fun ab =>
            (List.lookup ab markers).map (fun mseq => "AAAA".data ++ mseq)))
        ++ (if build_mcs design.enzymes = [] then []
            else "AAAA".data ++ build_mcs design.enzymes) := by
  simp only [assemble_plasmid]
  by_cases hmcs : build_mcs design.enzymes = []
  · rw [if_pos hmcs, if_pos hmcs]
    rw [markers_fold_join]
    rw [pyJoin_cons, pyJoin_cons, pyJoin_nil, List.append_nil, List.append_nil]
  · rw [if_neg hmcs, if_neg hmcs]
    rw [pyJoin_append, markers_fold_join]
    rw [pyJoin_cons, pyJoin_cons, pyJoin_nil, List.append_nil]
    rw [pyJoin_cons, pyJoin_cons, pyJoin_nil, List.append_nil]

theorem RE_SITE_motif_length {name : String} {motif : List Char}
    (h : List.lookup name RE_SITE = some motif) : motif.length = 6 := by
  rcases lookup_RE_SITE name motif h with
    hc | hc | hc | hc | hc | hc | hc | hc | hc | hc <;> (rw [hc.2]; decide)

/-- C8: `build_plasmid` is total: for every donor sequence, design, marker
table and removal list it produces a sequence; no input combination makes
the removal passes fail (catalog motifs always have length 6, for which the
mutation scan always terminates normally). -/
theorem C8_build_plasmid_total (input_seq : List Char) (design : PlasmidDesign)
    (markers : List (String × List Char)) (remove_sites : List String) :
    ∃ out, build_plasmid input_seq design markers remove_sites = some out := by
  unfold build_plasmid
  generalize assemble_plasmid input_seq design markers = cur
  induction remove_sites generalizing cur with
  | nil => exact ⟨cur, rfl⟩
  | cons name rest ih =>
    rw [List.foldlM_cons]
    cases hlk : List.lookup name RE_SITE with
    | none =>
      simp only [hlk]
      exact ih cur
    | some motif =>
      simp only [hlk]
      by_cases hcs : containsSub cur motif = true
      · rw [if_pos hcs]
        have hlen : motif.length = 6 := RE_SITE_motif_length hlk
        obtain ⟨r, hr, -⟩ := mutateAux_total motif (by omega) (cur.length + 1) cur 0 (by omega)
        rw [hr]
        exact ih r
      · rw [if_neg hcs]
        exact ih cur


end PlasmidMaker
